import Mathlib

/-!
Verification of the core of the doppelganger repository
(src/doppelganger/core.py): the Hamming distance on perceptual hashes,
the BK-tree based similarity grouping (`image_grouping` and `_new_group`),
and the hash cache (`load_cache`, `caching`).

Embedding conventions:
- A Python `Image` object is a record with its `path`, optional integer
  `hash` (`none` models a non-integer fingerprint, e.g. `None`), and
  `difference` field.  Distinct objects in the input collection are
  identified by their position (index) in the input list; the `checked`
  set of the sweep is therefore a set of indices.
- Machine integers are `Nat` (dhash fingerprints are non-negative).
- Fallible operations return `Except`.
- Groups are lists of `(difference, index)` pairs: `_new_group` returns
  the images it appended together with the distance it stored into each
  `difference` field, so a pair `(d, j)` stands for image `j` with its
  `difference` attribute set to `d`.
-/

namespace Doppelganger

/-- An `Image` record (core.py, class Image), restricted to the fields the
grouping and caching code touches: `path`, the optional integer fingerprint
`hash` (`none` when the hash is missing or not an integer), and
`difference`. -/
structure Image where
  path : String
  hash : Option Nat
  difference : Nat
deriving DecidableEq

/-- Default image used for out-of-range list lookups in statements. -/
def dimg : Image := ⟨"", none, 0⟩

/-- Number of set bits of `n`, computed structurally with fuel (`fuel = n`
always suffices).  This is `bin(n).count("1")`, the popcount used by
`dhash.get_num_bits_different`. -/
def popCountAux : Nat → Nat → Nat
  | 0, _ => 0
  | _, 0 => 0
  | fuel + 1, n + 1 => (n + 1) % 2 + popCountAux fuel ((n + 1) / 2)

/-- Popcount of a natural number. -/
def popCount (n : Nat) : Nat := popCountAux n n

/-- `hamming` (core.py lines 99-107): the Hamming distance between the
fingerprints of two images, `dhash.get_num_bits_different(h1, h2)`,
i.e. the popcount of the xor of the two hashes. -/
def hamming (h1 h2 : Nat) : Nat := popCount (h1 ^^^ h2)

/-- Stable insertion of a `(distance, index)` pair into a list sorted by
distance: the new pair goes after all pairs of smaller or equal distance. -/
def insertByDist (x : Nat × Nat) : List (Nat × Nat) → List (Nat × Nat)
  | [] => [x]
  | y :: ys => if y.1 ≤ x.1 then y :: insertByDist x ys else x :: y :: ys

/-- Stable sort by distance, as `pybktree.BKTree.find` sorts its result
list with `found.sort(key=operator.itemgetter(0))`. -/
def sortByDist : List (Nat × Nat) → List (Nat × Nat)
  | [] => []
  | x :: xs => insertByDist x (sortByDist xs)

/-- `pybktree.BKTree.find(item, n)`: all tree items within distance `s` of
image `i` (inclusive, and including image `i` itself at distance 0), as
`(distance, item)` pairs sorted by distance.  The tree is built over the
whole input collection, so membership of the result depends only on the
hash list `hs`, not on the `checked` set. -/
def bktFind (hs : List Nat) (i s : Nat) : List (Nat × Nat) :=
  sortByDist (((List.range hs.length).filter
    (fun j => hamming (hs.getD i 0) (hs.getD j 0) ≤ s)).map
    (fun j => (hamming (hs.getD i 0) (hs.getD j 0), j)))

/-- `_new_group` (core.py lines 146-154): walk the `(distance, image)`
pairs returned by the tree query; every image not yet in `checked` is
appended to the new group with its `difference` set to the distance, and
added to `checked`.  Returns the new group and the extended `checked`. -/
def new_group : List (Nat × Nat) → List Nat → List (Nat × Nat) × List Nat
  | [], checked => ([], checked)
  | (d, j) :: rest, checked =>
    if j ∈ checked then new_group rest checked
    else
      ((d, j) :: (new_group rest (j :: checked)).1,
       (new_group rest (j :: checked)).2)

/-- The sweep of `image_grouping` (core.py lines 131-144): iterate the
images in input order (`pending` is the list of indices still to visit),
skip images already in `checked`, skip images whose tree query returns
only themselves (`len(closests) == 1`), and otherwise emit the group
built by `_new_group`. -/
def sweepGo (hs : List Nat) (s : Nat) : List Nat → List Nat → List (List (Nat × Nat))
  | [], _ => []
  | i :: rest, checked =>
    if i ∈ checked then sweepGo hs s rest checked
    else if (bktFind hs i s).length = 1 then sweepGo hs s rest checked
    else (new_group (bktFind hs i s) checked).1 ::
         sweepGo hs s rest (new_group (bktFind hs i s) checked).2

/-- The fingerprints of the images, in input order. -/
def hashesOf (images : List Image) : List Nat :=
  images.map (fun im => im.hash.getD 0)

/-- `image_grouping` (core.py lines 109-144).  With at most one image the
empty list is returned at once.  Building the BK-tree evaluates the xor of
the hash of every supplied image (each non-root insertion computes
`hamming` against the root), so with at least 2 images construction raises
`TypeError` exactly when some hash is not an integer; the embedding tests
this up front and returns the re-raised error.  Otherwise the sweep runs
over the indices in input order with an empty `checked` set. -/
def image_grouping (images : List Image) (s : Nat) :
    Except String (List (List (Nat × Nat))) :=
  if images.length ≤ 1 then .ok []
  else if images.any (fun im => im.hash.isNone) then
    .error "While grouping, image hashes must be integers"
  else
    .ok (sweepGo (hashesOf images) s (List.range images.length) [])

/-- Image `j` is a member of one of the groups `gs`. -/
def memberIn (gs : List (List (Nat × Nat))) (j : Nat) : Prop :=
  ∃ g ∈ gs, ∃ d, (d, j) ∈ g

/-- Image `i` has at least one other image within Hamming distance `s`. -/
def hasNeighbor (hs : List Nat) (s i : Nat) : Prop :=
  ∃ j, j < hs.length ∧ j ≠ i ∧ hamming (hs.getD i 0) (hs.getD j 0) ≤ s

/-- The difference recorded for image `k` by the groups `gs` (the group
lists carry the value `_new_group` stored into each `difference` field),
or `none` when image `k` was placed in no group. -/
def groupDiff (gs : List (List (Nat × Nat))) (k : Nat) : Option Nat :=
  match gs with
  | [] => none
  | g :: rest =>
    match g.find? (fun dj => dj.2 == k) with
    | some dj => some dj.1
    | none => groupDiff rest k

/-- The in-place mutation of `_new_group` applied to the caller\x27s list:
image `k` gets its `difference` field overwritten with the recorded
distance when it was placed in a group, and is untouched otherwise.
`k0` is the index of the first element of the remaining list. -/
def applyDiffs (gs : List (List (Nat × Nat))) : List Image → Nat → List Image
  | [], _ => []
  | im :: rest, k =>
    (match groupDiff gs k with
     | some d => { im with difference := d }
     | none => im) :: applyDiffs gs rest (k + 1)

/-- The state of the caller\x27s image records after `image_grouping`
returns: on the `TypeError` path no image was touched (the error is raised
while building the tree, before the sweep); on success exactly the
`difference` fields of grouped images have been overwritten. -/
def image_grouping_post (images : List Image) (s : Nat) : List Image :=
  match image_grouping images s with
  | .error _ => images
  | .ok gs => applyDiffs gs images 0

/-- The persisted cache mapping: association list from image path to hash
with at most one entry per path (a Python dict in insertion order). -/
abbrev Cache := List (String × Nat)

/-- Dict lookup: `cached_hashes[path]` when present. -/
def lookupCache : Cache → String → Option Nat
  | [], _ => none
  | (k, v) :: rest, p => if k = p then some v else lookupCache rest p

/-- Dict assignment `cached_hashes[path] = h`: replaces the value at an
existing key in place, otherwise appends a new entry at the end. -/
def cacheInsert : Cache → String → Nat → Cache
  | [], p, h => [(p, h)]
  | (k, v) :: rest, p, h =>
    if k = p then (k, h) :: rest else (k, v) :: cacheInsert rest p h

/-- Observable states of the cache file on disk, by what `pickle.load`
does with its contents: absent (`open` raises `FileNotFoundError`),
truncated or empty (`pickle.load` raises `EOFError`), garbage bytes
(`pickle.load` raises `UnpicklingError`), or a stored mapping. -/
inductive CacheFile where
  | absent
  | truncated
  | garbage
  | stored (c : Cache)
deriving DecidableEq

/-- Errors surfaced by `load_cache`: the `EOFError` it re-raises with its
own corrupt-cache message, or the `UnpicklingError` of `pickle.load` that
propagates uncaught (core.py only catches `FileNotFoundError` and
`EOFError`).  There is no not-found error: an absent file is handled. -/
inductive LoadError where
  | corruptCache (msg : String)
  | unpickling
deriving DecidableEq

/-- `load_cache` (core.py lines 156-170): returns the stored mapping; an
absent file yields the empty mapping; an empty or truncated file makes
`pickle.load` raise `EOFError`, re-raised with the corrupt-cache message;
unparsable bytes make `pickle.load` raise `UnpicklingError`, which
propagates. -/
def load_cache : CacheFile → Except LoadError Cache
  | .absent => .ok []
  | .truncated =>
    .error (.corruptCache "The cache file might be corrupted (or empty)")
  | .garbage => .error .unpickling
  | .stored c => .ok c

/-- `caching` (core.py lines 204-217): for every image whose hash is not
`None`, assign `cached_hashes[image.path] = image.hash`; then pickle the
whole mapping to the cache file.  Returns the extended mapping and the
file state it leaves on disk. -/
def caching (images : List Image) (cached_hashes : Cache) : Cache × CacheFile :=
  let c := images.foldl
    (fun acc im =>
      match im.hash with
      | some h => cacheInsert acc im.path h
      | none => acc)
    cached_hashes
  (c, CacheFile.stored c)

/-- The hash stored for path `p` by the assignment loop of `caching` (the
last image with that path and a present hash wins), or `none` when no
image writes to `p`. -/
def newHash : List Image → String → Option Nat
  | [], _ => none
  | im :: rest, p =>
    match newHash rest p with
    | some h => some h
    | none => if im.path = p then im.hash else none

/-- Name of the cache file written by `caching`. -/
def cacheFileName : String := "image_hashes.p"

/-- Primitive filesystem operations, to describe how `caching` persists
the mapping. -/
inductive FsOp where
  | openTruncate (path : String)
  | writeSerialized (path : String)
  | renameFile (src dst : String)
deriving DecidableEq

/-- The filesystem operations `caching` performs to persist the cache:
`open("image_hashes.p", "wb")` truncates the target file in place, then
`pickle.dump` writes the serialized mapping into it.  No temporary file
and no rename are involved. -/
def saveOps : List FsOp :=
  [FsOp.openTruncate cacheFileName, FsOp.writeSerialized cacheFileName]

/-- Modelled from the spec: a save uses "write-to-temp-then-replace" when
no operation truncates or writes the target path directly and the target
is produced by a rename. -/
def writeToTempThenReplace (target : String) (ops : List FsOp) : Bool :=
  ops.all (fun op =>
    match op with
    | .openTruncate p => p ≠ target
    | .writeSerialized p => p ≠ target
    | .renameFile _ _ => true)
  && ops.any (fun op =>
    match op with
    | .renameFile _ dst => dst = target
    | _ => false)

/-- Crash points during the save step of `caching`. -/
inductive SaveCrash where
  | beforeOpen
  | afterOpen
  | midWrite
  | completed
deriving DecidableEq

/-- State of the cache file if the process dies at the given point of the
save in `caching`.  After the `open("wb")` the target is truncated to
empty; a partially written pickle stream lacks the terminating STOP
opcode, so in both interrupted states a later `pickle.load` raises
`EOFError` (the `truncated` file state). -/
def fileAfterCrash (prior : CacheFile) (c : Cache) : SaveCrash → CacheFile
  | .beforeOpen => prior
  | .afterOpen => .truncated
  | .midWrite => .truncated
  | .completed => .stored c

/-- Concrete input for the singleton-group edge case: hashes 0, 1, 3 at
sensitivity 1.  Image 2 is within distance 1 only of image 1, which the
group of image 0 has already claimed. -/
def ce3 : List Image := [⟨"a", some 0, 0⟩, ⟨"b", some 1, 0⟩, ⟨"c", some 3, 0⟩]

/-- Concrete scenario of the spec: pairwise distances 3, 8, 9 at
sensitivity 5.  `hamming 0 7 = 3`, `hamming 0 1020 = 8`,
`hamming 7 1020 = 9`. -/
def imgsABC : List Image :=
  [⟨"A", some 0, 0⟩, ⟨"B", some 7, 0⟩, ⟨"C", some 1020, 0⟩]

/-- Concrete pair with a non-integer fingerprint on the second image. -/
def badPair : List Image := [⟨"a", some 0, 0⟩, ⟨"b", none, 0⟩]

/-! ### Basic facts about the distance and the tree query -/

theorem hamming_self (h : Nat) : hamming h h = 0 := by
  unfold hamming
  rw [Nat.xor_self]
  rfl

theorem insertByDist_perm (x : Nat × Nat) (l : List (Nat × Nat)) :
    (insertByDist x l).Perm (x :: l) := by
  induction l with
  | nil => exact List.Perm.refl _
  | cons y ys ih =>
    rw [insertByDist]
    by_cases h : y.1 ≤ x.1
    · rw [if_pos h]
      exact (ih.cons y).trans (List.Perm.swap x y ys)
    · rw [if_neg h]

theorem sortByDist_perm (l : List (Nat × Nat)) : (sortByDist l).Perm l := by
  induction l with
  | nil => exact List.Perm.refl _
  | cons x xs ih =>
    rw [sortByDist]
    exact (insertByDist_perm x (sortByDist xs)).trans (ih.cons x)

theorem mem_sortByDist {a : Nat × Nat} {l : List (Nat × Nat)} :
    a ∈ sortByDist l ↔ a ∈ l :=
  (sortByDist_perm l).mem_iff

theorem mem_bktFind {hs : List Nat} {i s d j : Nat} :
    (d, j) ∈ bktFind hs i s ↔
      j < hs.length ∧ hamming (hs.getD i 0) (hs.getD j 0) ≤ s ∧
        d = hamming (hs.getD i 0) (hs.getD j 0) := by
  unfold bktFind
  rw [mem_sortByDist]
  simp only [List.mem_map, List.mem_filter, List.mem_range, decide_eq_true_eq,
    Prod.mk.injEq]
  constructor
  · rintro ⟨a, ⟨ha, hle⟩, hd, rfl⟩
    exact ⟨ha, hle, hd.symm⟩
  · rintro ⟨hj, hle, hd⟩
    exact ⟨j, ⟨hj, hle⟩, hd.symm, rfl⟩

theorem bktFind_nodup (hs : List Nat) (i s : Nat) : (bktFind hs i s).Nodup := by
  unfold bktFind
  rw [(sortByDist_perm _).nodup_iff]
  exact ((List.nodup_range _).filter _).map
    (fun a b h => congrArg Prod.snd h)

theorem self_mem_bktFind {hs : List Nat} {i : Nat} (s : Nat)
    (hi : i < hs.length) : (0, i) ∈ bktFind hs i s :=
  mem_bktFind.mpr ⟨hi, by rw [hamming_self]; exact Nat.zero_le s,
    (hamming_self _).symm⟩

theorem bktFind_length_one_iff {hs : List Nat} {i : Nat} (s : Nat)
    (hi : i < hs.length) :
    (bktFind hs i s).length = 1 ↔ ¬ hasNeighbor hs s i := by
  constructor
  · intro hlen hne
    obtain ⟨j, hj, hji, hjs⟩ := hne
    obtain ⟨a, ha⟩ := List.length_eq_one.mp hlen
    have h1 : a = (0, i) := by
      have := self_mem_bktFind s hi
      rw [ha] at this
      exact (List.mem_singleton.mp this).symm
    have h2 : a = (hamming (hs.getD i 0) (hs.getD j 0), j) := by
      have : (hamming (hs.getD i 0) (hs.getD j 0), j) ∈ bktFind hs i s :=
        mem_bktFind.mpr ⟨hj, hjs, rfl⟩
      rw [ha] at this
      exact (List.mem_singleton.mp this).symm
    exact hji (congrArg Prod.snd (h2.symm.trans h1))
  · intro hno
    have hall : ∀ a ∈ bktFind hs i s, a = (0, i) := by
      rintro ⟨d, j⟩ hm
      obtain ⟨hj, hle, hd⟩ := mem_bktFind.mp hm
      by_cases hji : j = i
      · subst hji
        rw [hamming_self] at hd
        rw [hd]
      · exact absurd ⟨j, hj, hji, hle⟩ hno
    have hmem := self_mem_bktFind s hi
    have hnd := bktFind_nodup hs i s
    rcases hbk : bktFind hs i s with _ | ⟨a, t⟩
    · rw [hbk] at hmem
      cases hmem
    · rcases t with _ | ⟨b, t2⟩
      · rfl
      · rw [hbk] at hall hnd
        have hab : a = (0, i) := hall a (by simp)
        have hbb : b = (0, i) := hall b (by simp)
        rw [List.nodup_cons] at hnd
        exact absurd (by rw [hab, ← hbb]; simp) hnd.1

/-! ### Facts about `_new_group` -/

theorem new_group_checked (cl : List (Nat × Nat)) :
    ∀ (c : List Nat) (j : Nat),
      j ∈ (new_group cl c).2 ↔
        (∃ d, (d, j) ∈ (new_group cl c).1) ∨ j ∈ c := by
  induction cl with
  | nil => intro c j; simp [new_group]
  | cons x rest ih =>
    rintro c j
    obtain ⟨d', j'⟩ := x
    rw [new_group]
    by_cases hc : j' ∈ c
    · rw [if_pos hc, ih]
    · rw [if_neg hc]
      simp only [List.mem_cons, Prod.mk.injEq]
      rw [ih (j' :: c) j]
      simp only [List.mem_cons]
      constructor
      · rintro (⟨d, hd⟩ | rfl | hjc)
        · exact Or.inl ⟨d, Or.inr hd⟩
        · exact Or.inl ⟨d', Or.inl ⟨rfl, rfl⟩⟩
        · exact Or.inr hjc
      · rintro (⟨d, ⟨hd, rfl⟩ | hd⟩ | hjc)
        · exact Or.inr (Or.inl rfl)
        · exact Or.inl ⟨d, hd⟩
        · exact Or.inr (Or.inr hjc)

theorem new_group_sub (cl : List (Nat × Nat)) :
    ∀ (c : List Nat) (dj : Nat × Nat),
      dj ∈ (new_group cl c).1 → dj ∈ cl ∧ dj.2 ∉ c := by
  induction cl with
  | nil => intro c dj h; simp [new_group] at h
  | cons x rest ih =>
    rintro c dj hm
    obtain ⟨d', j'⟩ := x
    rw [new_group] at hm
    by_cases hc : j' ∈ c
    · rw [if_pos hc] at hm
      obtain ⟨h1, h2⟩ := ih c dj hm
      exact ⟨List.mem_cons_of_mem _ h1, h2⟩
    · rw [if_neg hc] at hm
      rcases List.mem_cons.mp hm with rfl | hm2
      · exact ⟨List.mem_cons_self _ _, hc⟩
      · obtain ⟨h1, h2⟩ := ih (j' :: c) dj hm2
        refine ⟨List.mem_cons_of_mem _ h1, fun hjc => h2 ?_⟩
        exact List.mem_cons_of_mem _ hjc

theorem new_group_mem_of (cl : List (Nat × Nat)) :
    ∀ (c : List Nat) (d j : Nat), (d, j) ∈ cl → j ∉ c →
      ∃ d', (d', j) ∈ (new_group cl c).1 := by
  induction cl with
  | nil => intro c d j h _; cases h
  | cons x rest ih =>
    rintro c d j hm hjc
    obtain ⟨d', j'⟩ := x
    rw [new_group]
    by_cases hc : j' ∈ c
    · rw [if_pos hc]
      rcases List.mem_cons.mp hm with heq | hm2
      · cases heq
        exact absurd hc hjc
      · exact ih c d j hm2 hjc
    · rw [if_neg hc]
      by_cases hjj : j = j'
      · subst hjj
        exact ⟨d', List.mem_cons_self _ _⟩
      · rcases List.mem_cons.mp hm with heq | hm2
        · cases heq
          exact absurd rfl hjj
        · obtain ⟨d'', hd''⟩ := ih (j' :: c) d j hm2
            (by simp [List.mem_cons, hjj, hjc])
          exact ⟨d'', List.mem_cons_of_mem _ hd''⟩

theorem new_group_snd_nodup (cl : List (Nat × Nat)) :
    ∀ (c : List Nat), ((new_group cl c).1.map Prod.snd).Nodup := by
  induction cl with
  | nil => intro c; simp [new_group]
  | cons x rest ih =>
    intro c
    obtain ⟨d', j'⟩ := x
    rw [new_group]
    by_cases hc : j' ∈ c
    · rw [if_pos hc]
      exact ih c
    · rw [if_neg hc]
      simp only [List.map_cons, List.nodup_cons]
      refine ⟨fun hmem => ?_, ih (j' :: c)⟩
      obtain ⟨dj, hdj, hsnd⟩ := List.mem_map.mp hmem
      have := (new_group_sub rest (j' :: c) dj hdj).2
      rw [hsnd] at this
      exact this (List.mem_cons_self _ _)

/-! ### The sweep -/

theorem memberIn_nil (j : Nat) : ¬ memberIn [] j := by
  rintro ⟨g, hg, _⟩
  cases hg

theorem memberIn_cons {g : List (Nat × Nat)} {gs : List (List (Nat × Nat))}
    {j : Nat} :
    memberIn (g :: gs) j ↔ (∃ d, (d, j) ∈ g) ∨ memberIn gs j := by
  constructor
  · rintro ⟨g₀, hg₀, d, hd⟩
    rcases List.mem_cons.mp hg₀ with rfl | hg₀'
    · exact Or.inl ⟨d, hd⟩
    · exact Or.inr ⟨g₀, hg₀', d, hd⟩
  · rintro (⟨d, hd⟩ | ⟨g₀, hg₀, d, hd⟩)
    · exact ⟨g, List.mem_cons_self _ _, d, hd⟩
    · exact ⟨g₀, List.mem_cons_of_mem _ hg₀, d, hd⟩

/-- Full characterization of the groups the sweep emits, by induction over
the pending indices.  Hypotheses: the pending indices are strictly
ascending and in bounds, and every index already swept past is either in
`checked` or has no neighbor within the threshold.  The group at position
`k` has a reference `r`: a still-pending, unchecked index with a neighbor,
such that every smaller index is checked, in an earlier group, or
neighborless; the group contains `(0, r)`, and every member is within the
threshold of `r` with its recorded difference equal to its Hamming
distance to `r`. -/
theorem sweepGo_spec (hs : List Nat) (s : Nat) (pending : List Nat) :
    ∀ (checked : List Nat),
      pending.Pairwise (· < ·) →
      (∀ i ∈ pending, i < hs.length) →
      (∀ i, i < hs.length → i ∉ pending → i ∈ checked ∨ ¬ hasNeighbor hs s i) →
      ∀ k, k < (sweepGo hs s pending checked).length →
      ∃ r, r ∈ pending ∧ r ∉ checked ∧ hasNeighbor hs s r ∧
        ¬ memberIn ((sweepGo hs s pending checked).take k) r ∧
        (∀ i, i < r → i ∈ checked ∨
          memberIn ((sweepGo hs s pending checked).take k) i ∨
          ¬ hasNeighbor hs s i) ∧
        (0, r) ∈ (sweepGo hs s pending checked).getD k [] ∧
        (∀ dj ∈ (sweepGo hs s pending checked).getD k [],
          dj.2 < hs.length ∧
          hamming (hs.getD r 0) (hs.getD dj.2 0) ≤ s ∧
          dj.1 = hamming (hs.getD r 0) (hs.getD dj.2 0)) := by
  induction pending with
  | nil =>
    intro checked _ _ _ k hk
    rw [sweepGo] at hk
    cases hk
  | cons i rest ih =>
    intro checked hpair hbound hdone k hk
    have hin : i < hs.length := hbound i (List.mem_cons_self _ _)
    by_cases hc : i ∈ checked
    · rw [sweepGo, if_pos hc] at hk ⊢
      obtain ⟨r, h1, h2, h3, h4, h5, h6, h7⟩ :=
        ih checked hpair.of_cons
          (fun i' hi' => hbound i' (List.mem_cons_of_mem _ hi'))
          (fun i' hlt hni => by
            by_cases hii : i' = i
            · subst hii; exact Or.inl hc
            · exact hdone i' hlt (by simp [List.mem_cons, hii, hni]))
          k hk
      exact ⟨r, List.mem_cons_of_mem _ h1, h2, h3, h4, h5, h6, h7⟩
    · by_cases hl : (bktFind hs i s).length = 1
      · rw [sweepGo, if_neg hc, if_pos hl] at hk ⊢
        have hno : ¬ hasNeighbor hs s i := (bktFind_length_one_iff s hin).mp hl
        obtain ⟨r, h1, h2, h3, h4, h5, h6, h7⟩ :=
          ih checked hpair.of_cons
            (fun i' hi' => hbound i' (List.mem_cons_of_mem _ hi'))
            (fun i' hlt hni => by
              by_cases hii : i' = i
              · subst hii; exact Or.inr hno
              · exact hdone i' hlt (by simp [List.mem_cons, hii, hni]))
            k hk
        exact ⟨r, List.mem_cons_of_mem _ h1, h2, h3, h4, h5, h6, h7⟩
      · rw [sweepGo, if_neg hc, if_neg hl] at hk ⊢
        have hneigh : hasNeighbor hs s i := by
          by_contra hno
          exact hl ((bktFind_length_one_iff s hin).mpr hno)
        have hgi : (0, i) ∈ (new_group (bktFind hs i s) checked).1 := by
          obtain ⟨d', hd'⟩ :=
            new_group_mem_of (bktFind hs i s) checked 0 i
              (self_mem_bktFind s hin) hc
          have hsub := (new_group_sub (bktFind hs i s) checked _ hd').1
          obtain ⟨_, _, hd0⟩ := mem_bktFind.mp hsub
          rw [hamming_self] at hd0
          rwa [hd0] at hd'
        match k with
        | 0 =>
          refine ⟨i, List.mem_cons_self _ _, hc, hneigh, ?_, ?_, ?_, ?_⟩
          · rw [List.take_zero]
            exact memberIn_nil i
          · intro i' hi'
            have hni : i' ∉ i :: rest := by
              intro hmem
              rcases List.mem_cons.mp hmem with rfl | hmem'
              · exact Nat.lt_irrefl _ hi'
              · exact Nat.lt_irrefl _
                  (Nat.lt_trans hi' (List.rel_of_pairwise_cons hpair hmem'))
            rcases hdone i' (Nat.lt_trans hi' hin) hni with h | h
            · exact Or.inl h
            · exact Or.inr (Or.inr h)
          · rw [List.getD_cons_zero]
            exact hgi
          · rw [List.getD_cons_zero]
            rintro ⟨d, j⟩ hdj
            have hsub := (new_group_sub (bktFind hs i s) checked _ hdj).1
            obtain ⟨hj, hle, hd⟩ := mem_bktFind.mp hsub
            exact ⟨hj, hle, hd⟩
        | k + 1 =>
          rw [List.length_cons, Nat.add_lt_add_iff_right] at hk
          obtain ⟨r, h1, h2, h3, h4, h5, h6, h7⟩ :=
            ih (new_group (bktFind hs i s) checked).2 hpair.of_cons
              (fun i' hi' => hbound i' (List.mem_cons_of_mem _ hi'))
              (fun i' hlt hni => by
                by_cases hii : i' = i
                · subst hii
                  exact Or.inl ((new_group_checked _ _ _).mpr
                    (Or.inl ⟨0, hgi⟩))
                · rcases hdone i' hlt (by simp [List.mem_cons, hii, hni])
                    with h | h
                  · exact Or.inl ((new_group_checked _ _ _).mpr (Or.inr h))
                  · exact Or.inr h)
              k hk
          refine ⟨r, List.mem_cons_of_mem _ h1, ?_, h3, ?_, ?_, ?_, ?_⟩
          · intro hrc
            exact h2 ((new_group_checked _ _ _).mpr (Or.inr hrc))
          · rw [List.take_succ_cons]
            rw [memberIn_cons]
            rintro (⟨d, hd⟩ | hmem)
            · exact h2 ((new_group_checked _ _ _).mpr (Or.inl ⟨d, hd⟩))
            · exact h4 hmem
          · intro i' hi'
            rw [List.take_succ_cons, memberIn_cons]
            rcases h5 i' hi' with h | h | h
            · rcases (new_group_checked _ _ _).mp h with h' | h'
              · exact Or.inr (Or.inl (Or.inl h'))
              · exact Or.inl h'
            · exact Or.inr (Or.inl (Or.inr h))
            · exact Or.inr (Or.inr h)
          · rw [List.getD_cons_succ]
            exact h6
          · rw [List.getD_cons_succ]
            exact h7

/-- Across one run of the sweep no index is placed in two groups, and no
index of the initial `checked` set is placed in any group. -/
theorem sweepGo_flatten_nodup (hs : List Nat) (s : Nat) (pending : List Nat) :
    ∀ (checked : List Nat),
      (((sweepGo hs s pending checked).map
        (fun g => g.map Prod.snd)).flatten).Nodup ∧
      (∀ j ∈ ((sweepGo hs s pending checked).map
        (fun g => g.map Prod.snd)).flatten, j ∉ checked) := by
  induction pending with
  | nil =>
    intro checked
    rw [sweepGo]
    exact ⟨List.nodup_nil, by simp⟩
  | cons i rest ih =>
    intro checked
    by_cases hc : i ∈ checked
    · rw [sweepGo, if_pos hc]
      exact ih checked
    · by_cases hl : (bktFind hs i s).length = 1
      · rw [sweepGo, if_neg hc, if_pos hl]
        exact ih checked
      · rw [sweepGo, if_neg hc, if_neg hl]
        obtain ⟨ih1, ih2⟩ := ih (new_group (bktFind hs i s) checked).2
        simp only [List.map_cons, List.flatten_cons]
        constructor
        · rw [List.nodup_append]
          refine ⟨new_group_snd_nodup _ _, ih1, fun j hj hj' => ?_⟩
          obtain ⟨dj, hdj, rfl⟩ := List.mem_map.mp hj
          have : dj.2 ∈ (new_group (bktFind hs i s) checked).2 :=
            (new_group_checked _ _ _).mpr (Or.inl ⟨dj.1, by simpa using hdj⟩)
          exact ih2 dj.2 hj' this
        · intro j hj
          rcases List.mem_append.mp hj with hj' | hj'
          · obtain ⟨dj, hdj, rfl⟩ := List.mem_map.mp hj'
            exact (new_group_sub _ _ _ hdj).2
          · intro hjc
            exact ih2 j hj' ((new_group_checked _ _ _).mpr (Or.inr hjc))

/-! ### `image_grouping` level helpers -/

theorem hashesOf_length (images : List Image) :
    (hashesOf images).length = images.length := by
  simp [hashesOf]

theorem image_grouping_ok_elim {images : List Image} {s : Nat}
    {gs : List (List (Nat × Nat))}
    (h : image_grouping images s = Except.ok gs) :
    gs = [] ∨
      gs = sweepGo (hashesOf images) s (List.range images.length) [] := by
  unfold image_grouping at h
  by_cases h1 : images.length ≤ 1
  · rw [if_pos h1] at h
    exact Or.inl (Except.ok.inj h).symm
  · rw [if_neg h1] at h
    by_cases h2 : images.any (fun im => im.hash.isNone) = true
    · rw [if_pos h2] at h
      exact absurd h (by simp)
    · rw [if_neg h2] at h
      exact Or.inr (Except.ok.inj h).symm

/-- Shared characterization of the emitted groups: for every position `k`
there is a reference image `r`, the first index in input order that is
neither in an earlier group nor neighborless, the group contains `(0, r)`
and every member records its Hamming distance to `r`. -/
theorem grouping_spec {images : List Image} {s : Nat}
    {gs : List (List (Nat × Nat))}
    (h : image_grouping images s = Except.ok gs) :
    ∀ k, k < gs.length → ∃ r, r < images.length ∧
      hasNeighbor (hashesOf images) s r ∧
      ¬ memberIn (gs.take k) r ∧
      (∀ i, i < r → memberIn (gs.take k) i ∨
        ¬ hasNeighbor (hashesOf images) s i) ∧
      (0, r) ∈ gs.getD k [] ∧
      (∀ dj ∈ gs.getD k [], dj.2 < images.length ∧
        hamming ((hashesOf images).getD r 0) ((hashesOf images).getD dj.2 0) ≤ s ∧
        dj.1 = hamming ((hashesOf images).getD r 0)
          ((hashesOf images).getD dj.2 0)) := by
  rcases image_grouping_ok_elim h with rfl | rfl
  · intro k hk
    cases hk
  · intro k hk
    obtain ⟨r, h1, _h2, h3, h4, h5, h6, h7⟩ :=
      sweepGo_spec (hashesOf images) s (List.range images.length) []
        (List.pairwise_lt_range _)
        (fun i hi => by
          rw [hashesOf_length]
          exact List.mem_range.mp hi)
        (fun i hlt hni => by
          rw [hashesOf_length] at hlt
          exact absurd (List.mem_range.mpr hlt) hni)
        k hk
    refine ⟨r, List.mem_range.mp h1, h3, h4, ?_, h6, ?_⟩
    · intro i hi
      rcases h5 i hi with h | h | h
      · cases h
      · exact Or.inl h
      · exact Or.inr h
    · intro dj hdj
      obtain ⟨hb, hle, hd⟩ := h7 dj hdj
      rw [hashesOf_length] at hb
      exact ⟨hb, hle, hd⟩

/-- Shared: no index appears in two groups of one `image_grouping` run. -/
theorem grouping_flatten_nodup {images : List Image} {s : Nat}
    {gs : List (List (Nat × Nat))}
    (h : image_grouping images s = Except.ok gs) :
    ((gs.map (fun g => g.map Prod.snd)).flatten).Nodup := by
  rcases image_grouping_ok_elim h with rfl | rfl
  · simp
  · exact (sweepGo_flatten_nodup (hashesOf images) s
      (List.range images.length) []).1

/-! ### Cache lemmas -/

theorem lookup_cacheInsert (c : Cache) :
    ∀ (p : String) (h : Nat) (q : String),
      lookupCache (cacheInsert c p h) q =
        if p = q then some h else lookupCache c q := by
  induction c with
  | nil =>
    intro p h q
    by_cases hpq : p = q <;> simp [cacheInsert, lookupCache, hpq]
  | cons kv rest ih =>
    intro p h q
    obtain ⟨k, v⟩ := kv
    rw [cacheInsert]
    by_cases hkp : k = p
    · subst hkp
      by_cases hkq : k = q <;> simp [lookupCache, hkq]
    · rw [if_neg hkp]
      by_cases hkq : k = q
      · have hpq : ¬ p = q := fun hpq => hkp (hkq.trans hpq.symm)
        simp only [lookupCache, if_pos hkq, if_neg hpq]
      · simp only [lookupCache, if_neg hkq]
        exact ih p h q

theorem caching_fold_lookup (images : List Image) :
    ∀ (c : Cache) (p : String),
      lookupCache (caching images c).1 p =
        match newHash images p with
        | some h => some h
        | none => lookupCache c p := by
  induction images with
  | nil => intro c p; rfl
  | cons im rest ih =>
    intro c p
    show lookupCache
      (List.foldl _ (match im.hash with
        | some h => cacheInsert c im.path h
        | none => c) rest) p = _
    have step : ∀ c' : Cache,
        lookupCache (List.foldl (fun acc im' =>
          match im'.hash with
          | some h => cacheInsert acc im'.path h
          | none => acc) c' rest) p =
          match newHash rest p with
          | some h => some h
          | none => lookupCache c' p := fun c' => ih c' p
    rw [step]
    rw [newHash]
    rcases hnr : newHash rest p with _ | h
    · rcases hh : im.hash with _ | h'
      · by_cases hp : im.path = p <;> simp [hp]
      · rw [lookup_cacheInsert]
        by_cases hp : im.path = p <;> simp [hp]
    · rfl

theorem newHash_eq_none_of {images : List Image} {p : String}
    (h : ∀ im ∈ images, im.path = p → im.hash = none) :
    newHash images p = none := by
  induction images with
  | nil => rfl
  | cons im rest ih =>
    rw [newHash, ih (fun im' hm => h im' (List.mem_cons_of_mem _ hm))]
    by_cases hp : im.path = p
    · rw [if_pos hp, h im (List.mem_cons_self _ _) hp]
    · rw [if_neg hp]

theorem newHash_of_mem {images : List Image} :
    ∀ {im : Image} {h : Nat}, (images.map Image.path).Nodup →
      im ∈ images → im.hash = some h → newHash images im.path = some h := by
  induction images with
  | nil => intro im h _ hm; cases hm
  | cons im₀ rest ih =>
    intro im h hnd hm hh
    simp only [List.map_cons, List.nodup_cons] at hnd
    obtain ⟨hnotin, hnd'⟩ := hnd
    rcases List.mem_cons.mp hm with rfl | hm'
    · have hz : newHash rest im.path = none := by
        refine newHash_eq_none_of (fun im' hm' hp => ?_)
        exact absurd (List.mem_map.mpr ⟨im', hm', hp⟩) hnotin
      rw [newHash, hz, if_pos rfl]
      exact hh
    · rw [newHash, ih hnd' hm' hh]

/-! ### Post-state lemmas -/

theorem applyDiffs_length (gs : List (List (Nat × Nat))) :
    ∀ (l : List Image) (k0 : Nat), (applyDiffs gs l k0).length = l.length := by
  intro l
  induction l with
  | nil => intro k0; rfl
  | cons im rest ih =>
    intro k0
    rw [applyDiffs, List.length_cons, List.length_cons, ih]

theorem applyDiffs_getD (gs : List (List (Nat × Nat))) :
    ∀ (l : List Image) (k0 k : Nat), k < l.length →
      (applyDiffs gs l k0).getD k dimg =
        match groupDiff gs (k0 + k) with
        | some d => { l.getD k dimg with difference := d }
        | none => l.getD k dimg := by
  intro l
  induction l with
  | nil => intro k0 k hk; cases hk
  | cons im rest ih =>
    intro k0 k hk
    match k with
    | 0 =>
      rw [applyDiffs, List.getD_cons_zero, List.getD_cons_zero, Nat.add_zero]
    | k + 1 =>
      rw [applyDiffs, List.getD_cons_succ, List.getD_cons_succ]
      rw [ih (k0 + 1) k (by exact Nat.lt_of_succ_lt_succ hk)]
      have harith : k0 + 1 + k = k0 + (k + 1) := by omega
      rw [harith]

theorem groupDiff_eq_none_iff (gs : List (List (Nat × Nat))) (k : Nat) :
    groupDiff gs k = none ↔ ¬ memberIn gs k := by
  induction gs with
  | nil =>
    constructor
    · intro _; exact memberIn_nil k
    · intro _; rfl
  | cons g rest ih =>
    rw [groupDiff]
    rcases hf : g.find? (fun dj => dj.2 == k) with _ | dj
    · rw [hf]
      have hng : ∀ x ∈ g, x.2 ≠ k := by
        intro x hx
        have := List.find?_eq_none.mp hf x hx
        simpa using this
      constructor
      · intro hnr hmem
        rcases memberIn_cons.mp hmem with ⟨d, hd⟩ | hmem'
        · exact hng (d, k) hd rfl
        · exact (ih.mp hnr) hmem'
      · intro hn
        exact ih.mpr (fun hmem => hn (memberIn_cons.mpr (Or.inr hmem)))
    · rw [hf]
      have h2 : dj.2 = k := by
        have := List.find?_some hf
        simpa using this
      have hmem : memberIn (g :: rest) k := by
        refine memberIn_cons.mpr (Or.inl ⟨dj.1, ?_⟩)
        have := List.mem_of_find?_eq_some hf
        rwa [← h2, Prod.mk.eta]
      constructor
      · intro hcontra
        exact absurd hcontra (by simp)
      · intro hn
        exact absurd hmem hn

/-- A path occurs for at most one image when the mapped paths are nodup. -/
theorem path_unique {images : List Image}
    (hp : (images.map Image.path).Nodup) :
    ∀ {im im' : Image}, im ∈ images → im' ∈ images →
      im'.path = im.path → im' = im := by
  induction images with
  | nil => intro im im' hm; cases hm
  | cons im₀ rest ih =>
    intro im im' hm hm' hpe
    simp only [List.map_cons, List.nodup_cons] at hp
    obtain ⟨hnotin, hnd'⟩ := hp
    rcases List.mem_cons.mp hm with rfl | hmr
    · rcases List.mem_cons.mp hm' with rfl | hmr'
      · rfl
      · exact absurd (List.mem_map.mpr ⟨im', hmr', hpe⟩) hnotin
    · rcases List.mem_cons.mp hm' with rfl | hmr'
      · exact absurd (List.mem_map.mpr ⟨im, hmr, hpe.symm⟩) hnotin
      · exact ih hnd' hmr hmr' hpe

/-! ### Claims -/

/-- C1: for every collection of fingerprinted images and every
sensitivity, every group returned by `image_grouping` is formed around a
reference image `r`: the first not-yet-checked image in input order (every
earlier image is in an earlier group or has no other image within
inclusive Hamming distance `s`), `r` itself is in no earlier group and has
a neighbor within `s`, the group records difference 0 for `r`, and every
member of the group has its difference set to its Hamming distance to `r`
(which is at most `s`). -/
theorem image_grouping_reference_policy (images : List Image) (s : Nat)
    (gs : List (List (Nat × Nat)))
    (h : image_grouping images s = Except.ok gs) :
    ∀ k, k < gs.length → ∃ r, r < images.length ∧
      hasNeighbor (hashesOf images) s r ∧
      ¬ memberIn (gs.take k) r ∧
      (∀ i, i < r → memberIn (gs.take k) i ∨
        ¬ hasNeighbor (hashesOf images) s i) ∧
      (0, r) ∈ gs.getD k [] ∧
      (∀ dj ∈ gs.getD k [], dj.2 < images.length ∧
        hamming ((hashesOf images).getD r 0)
          ((hashesOf images).getD dj.2 0) ≤ s ∧
        dj.1 = hamming ((hashesOf images).getD r 0)
          ((hashesOf images).getD dj.2 0)) :=
  grouping_spec h

/-- Witness for C1 at the concrete input `ce3` with sensitivity 1,
instantiated at the second emitted group. -/
theorem image_grouping_reference_policy_witness :
    ∃ r, r < ce3.length ∧
      hasNeighbor (hashesOf ce3) 1 r ∧
      ¬ memberIn (([[(0, 0), (1, 1)], [(0, 2)]] :
        List (List (Nat × Nat))).take 1) r ∧
      (∀ i, i < r → memberIn (([[(0, 0), (1, 1)], [(0, 2)]] :
        List (List (Nat × Nat))).take 1) i ∨
        ¬ hasNeighbor (hashesOf ce3) 1 i) ∧
      (0, r) ∈ ([[(0, 0), (1, 1)], [(0, 2)]] :
        List (List (Nat × Nat))).getD 1 [] ∧
      (∀ dj ∈ ([[(0, 0), (1, 1)], [(0, 2)]] :
        List (List (Nat × Nat))).getD 1 [], dj.2 < ce3.length ∧
        hamming ((hashesOf ce3).getD r 0) ((hashesOf ce3).getD dj.2 0) ≤ 1 ∧
        dj.1 = hamming ((hashesOf ce3).getD r 0)
          ((hashesOf ce3).getD dj.2 0)) :=
  image_grouping_reference_policy ce3 1 [[(0, 0), (1, 1)], [(0, 2)]] rfl 1
    (by decide)

/-- C2: with three images A, B, C at pairwise Hamming distances
`dist(A,B) = 3`, `dist(A,C) = 8`, `dist(B,C) = 9` and sensitivity 5, swept
in order A, B, C, `image_grouping` returns exactly one group, containing A
(the reference, difference 0) and B with difference 3, and C is in no
group. -/
theorem image_grouping_concrete_abc :
    image_grouping imgsABC 5 = Except.ok [[(0, 0), (3, 1)]] ∧
    hamming 0 7 = 3 ∧ hamming 0 1020 = 8 ∧ hamming 7 1020 = 9 ∧
    (∀ g ∈ ([[(0, 0), (3, 1)]] : List (List (Nat × Nat))),
      ∀ dj ∈ g, dj.2 ≠ 2) :=
  ⟨rfl, rfl, rfl, rfl, by decide⟩

/-- C3 counterexample: with hashes 0, 1, 3 at sensitivity 1 the returned
list contains the singleton group `[(0, 2)]` — image 2 is within distance
1 of image 1 only, which the first group has already claimed — so not
every group has at least 2 members. -/
theorem image_grouping_singleton_group_cex :
    ¬ (∀ gs, image_grouping ce3 1 = Except.ok gs →
      ∀ g ∈ gs, 2 ≤ g.length) := by
  intro hall
  have := hall [[(0, 0), (1, 1)], [(0, 2)]] rfl [(0, 2)] (by decide)
  exact absurd this (by decide)

/-- C3 (amended): every group returned by `image_grouping` contains at
least one image (its reference); a group with a single member is emitted
when all its other within-threshold candidates already belong to earlier
groups. -/
theorem image_grouping_groups_nonempty (images : List Image) (s : Nat)
    (gs : List (List (Nat × Nat)))
    (h : image_grouping images s = Except.ok gs) :
    ∀ g ∈ gs, 1 ≤ g.length := by
  intro g hg
  obtain ⟨k, hk, hEq⟩ := List.mem_iff_getElem.mp hg
  obtain ⟨r, _, _, _, _, hself, _⟩ := grouping_spec h k hk
  rw [List.getD_eq_getElem _ _ hk, hEq] at hself
  exact List.length_pos.mpr (List.ne_nil_of_mem hself)

/-- Witness for C3 (amended): the singleton group of the counterexample
input is nonempty. -/
theorem image_grouping_groups_nonempty_witness :
    1 ≤ ([(0, 2)] : List (Nat × Nat)).length :=
  image_grouping_groups_nonempty ce3 1 [[(0, 0), (1, 1)], [(0, 2)]] rfl
    [(0, 2)] (by decide)

/-- C4: under the data-model invariant that paths identify images (the
input paths are pairwise distinct), an image path appearing in one group
never appears in a later group: members of distinct groups have distinct
paths. -/
theorem image_grouping_paths_in_one_group (images : List Image) (s : Nat)
    (gs : List (List (Nat × Nat)))
    (h : image_grouping images s = Except.ok gs)
    (hp : (images.map Image.path).Nodup) :
    ∀ k1 k2, k1 < k2 → k2 < gs.length →
      ∀ dj1 ∈ gs.getD k1 [], ∀ dj2 ∈ gs.getD k2 [],
        (images.getD dj1.2 dimg).path ≠ (images.getD dj2.2 dimg).path := by
  intro k1 k2 h12 hk2 dj1 hdj1 dj2 hdj2
  have hk1 : k1 < gs.length := Nat.lt_trans h12 hk2
  obtain ⟨r1, _, _, _, _, _, hmem1⟩ := grouping_spec h k1 hk1
  obtain ⟨r2, _, _, _, _, _, hmem2⟩ := grouping_spec h k2 hk2
  have hb1 : dj1.2 < images.length := (hmem1 dj1 hdj1).1
  have hb2 : dj2.2 < images.length := (hmem2 dj2 hdj2).1
  have hnd := grouping_flatten_nodup h
  have hpairwise := (List.nodup_flatten.mp hnd).2
  have hk1m : k1 < (gs.map (fun g => g.map Prod.snd)).length := by
    rw [List.length_map]; exact hk1
  have hk2m : k2 < (gs.map (fun g => g.map Prod.snd)).length := by
    rw [List.length_map]; exact hk2
  have hdisj := List.pairwise_iff_getElem.mp hpairwise k1 k2 hk1m hk2m h12
  have hget1 : (gs.map (fun g => g.map Prod.snd))[k1] =
      (gs.getD k1 []).map Prod.snd := by
    rw [List.getElem_map, List.getD_eq_getElem _ _ hk1]
  have hget2 : (gs.map (fun g => g.map Prod.snd))[k2] =
      (gs.getD k2 []).map Prod.snd := by
    rw [List.getElem_map, List.getD_eq_getElem _ _ hk2]
  have hj1 : dj1.2 ∈ (gs.map (fun g => g.map Prod.snd))[k1] := by
    rw [hget1]; exact List.mem_map_of_mem _ hdj1
  have hj2 : dj2.2 ∈ (gs.map (fun g => g.map Prod.snd))[k2] := by
    rw [hget2]; exact List.mem_map_of_mem _ hdj2
  have hne : dj1.2 ≠ dj2.2 := by
    intro he
    exact hdisj hj1 (by rw [he]; exact hj2)
  intro hpe
  apply hne
  have hb1m : dj1.2 < (images.map Image.path).length := by
    rw [List.length_map]; exact hb1
  have hb2m : dj2.2 < (images.map Image.path).length := by
    rw [List.length_map]; exact hb2
  have hgetpe : (images.map Image.path)[dj1.2] =
      (images.map Image.path)[dj2.2] := by
    rw [List.getElem_map, List.getElem_map,
      ← List.getD_eq_getElem images dimg hb1,
      ← List.getD_eq_getElem images dimg hb2]
    exact hpe
  exact (List.Nodup.getElem_inj_iff hp).mp hgetpe

/-- Witness for C4 at the concrete input `ce3`: the member of the second
group has a path distinct from a member of the first group. -/
theorem image_grouping_paths_in_one_group_witness :
    (ce3.getD 0 dimg).path ≠ (ce3.getD 2 dimg).path :=
  image_grouping_paths_in_one_group ce3 1 [[(0, 0), (1, 1)], [(0, 2)]] rfl
    (by decide) 0 1 (by decide) (by decide) (0, 0) (by decide) (0, 2)
    (by decide)

/-- C5: `image_grouping` returns the invalid-fingerprint `TypeError` if
and only if at least 2 images are supplied and some supplied image has a
non-integer fingerprint, and the error (raised while the tree is built,
before the sweep) carries no groups: the call never returns a partial
group list. -/
theorem image_grouping_error_iff (images : List Image) (s : Nat) :
    ((∃ e, image_grouping images s = Except.error e) ↔
      (2 ≤ images.length ∧ ∃ im ∈ images, im.hash = none)) ∧
    (∀ e, image_grouping images s = Except.error e →
      e = "While grouping, image hashes must be integers") := by
  constructor
  · constructor
    · rintro ⟨e, he⟩
      unfold image_grouping at he
      by_cases h1 : images.length ≤ 1
      · rw [if_pos h1] at he
        exact absurd he (by simp)
      · rw [if_neg h1] at he
        by_cases h2 : images.any (fun im => im.hash.isNone) = true
        · refine ⟨by omega, ?_⟩
          obtain ⟨im, hm, him⟩ := List.any_eq_true.mp h2
          exact ⟨im, hm, Option.isNone_iff_eq_none.mp him⟩
        · rw [if_neg h2] at he
          exact absurd he (by simp)
    · rintro ⟨hlen, im, hm, hh⟩
      have h1 : ¬ images.length ≤ 1 := by omega
      have h2 : images.any (fun im => im.hash.isNone) = true :=
        List.any_eq_true.mpr ⟨im, hm, by rw [hh]; rfl⟩
      refine ⟨"While grouping, image hashes must be integers", ?_⟩
      unfold image_grouping
      rw [if_neg h1, if_pos h2]
  · intro e he
    unfold image_grouping at he
    by_cases h1 : images.length ≤ 1
    · rw [if_pos h1] at he
      exact absurd he (by simp)
    · rw [if_neg h1] at he
      by_cases h2 : images.any (fun im => im.hash.isNone) = true
      · rw [if_pos h2] at he
        exact (Except.error.inj he).symm
      · rw [if_neg h2] at he
        exact absurd he (by simp)

/-- Witness for C5: a pair whose second image has a non-integer
fingerprint makes `image_grouping` return the `TypeError` message. -/
theorem image_grouping_error_iff_witness :
    image_grouping badPair 0 =
      Except.error "While grouping, image hashes must be integers" := by
  obtain ⟨e, he⟩ := (image_grouping_error_iff badPair 0).1.mpr
    ⟨by decide, ⟨"b", none, 0⟩, by decide, rfl⟩
  have hmsg := (image_grouping_error_iff badPair 0).2 e he
  rw [hmsg] at he
  exact he

/-- C6: `load_cache` returns the empty mapping without error when no cache
file exists, and whenever the file exists but its contents cannot be
deserialized it raises an error — the labelled corrupt-cache `EOFError`
for an empty or truncated file, the propagated `UnpicklingError` for
garbage bytes — and these are the only error cases, so an error is always
distinct from the (never-erroring) not-found condition. -/
theorem load_cache_absent_and_corrupt :
    load_cache CacheFile.absent = Except.ok [] ∧
    load_cache CacheFile.truncated = Except.error
      (LoadError.corruptCache "The cache file might be corrupted (or empty)") ∧
    load_cache CacheFile.garbage = Except.error LoadError.unpickling ∧
    (∀ f : CacheFile, (∃ e, load_cache f = Except.error e) ↔
      (f = CacheFile.truncated ∨ f = CacheFile.garbage)) := by
  refine ⟨rfl, rfl, rfl, ?_⟩
  intro f
  cases f with
  | absent => simp [load_cache]
  | truncated => simp [load_cache]
  | garbage => simp [load_cache]
  | stored c => simp [load_cache]

/-- C7: running `caching` (extend then save) and then `load_cache` yields
back exactly the extended mapping: every image with a present fingerprint
is mapped to it, paths of no supplied image keep their prior entry, images
with a missing fingerprint contribute nothing (their path keeps its prior
entry, and a path absent before stays absent unless some image writes
it). -/
theorem caching_roundtrip (images : List Image) (c : Cache)
    (hp : (images.map Image.path).Nodup) :
    load_cache (caching images c).2 = Except.ok (caching images c).1 ∧
    (∀ im ∈ images, ∀ h, im.hash = some h →
      lookupCache (caching images c).1 im.path = some h) ∧
    (∀ p, (∀ im ∈ images, im.path ≠ p) →
      lookupCache (caching images c).1 p = lookupCache c p) ∧
    (∀ im ∈ images, im.hash = none →
      lookupCache (caching images c).1 im.path = lookupCache c im.path) ∧
    (∀ p, lookupCache c p = none →
      (∀ im ∈ images, im.path = p → im.hash = none) →
      lookupCache (caching images c).1 p = none) := by
  refine ⟨rfl, ?_, ?_, ?_, ?_⟩
  · intro im hm h hh
    rw [caching_fold_lookup, newHash_of_mem hp hm hh]
  · intro p hnp
    rw [caching_fold_lookup,
      newHash_eq_none_of (fun im hm hpe => absurd hpe (hnp im hm))]
  · intro im hm hh
    have huniq : ∀ im' ∈ images, im'.path = im.path → im'.hash = none := by
      intro im' hm' hpe
      rw [path_unique hp hm hm' hpe]
      exact hh
    rw [caching_fold_lookup, newHash_eq_none_of huniq]
  · intro p hcp hall
    rw [caching_fold_lookup, newHash_eq_none_of hall]
    exact hcp

/-- Witness for C7: after caching an image with hash 5 over a prior cache,
loading finds it. -/
theorem caching_roundtrip_witness :
    lookupCache (caching [⟨"a", some 5, 0⟩, ⟨"b", none, 0⟩]
      [("z", 9)]).1 "a" = some 5 :=
  (caching_roundtrip [⟨"a", some 5, 0⟩, ⟨"b", none, 0⟩] [("z", 9)]
    (by decide)).2.1 ⟨"a", some 5, 0⟩ (by decide) 5 rfl

/-- C8 counterexample: caching an image whose path is already cached with
a different fingerprint overwrites the entry — the cache maps "p" to 1
before and to 2 after, so the original value is not kept. -/
theorem caching_overwrites_cex :
    lookupCache (caching [⟨"p", some 2, 0⟩] [("p", 1)]).1 "p" = some 2 ∧
    some 2 ≠ (some 1 : Option Nat) :=
  ⟨rfl, by decide⟩

/-- C8 (amended): an entry already present keeps its value across
`caching` provided no supplied image with a present fingerprint has that
entry\x27s path (as in the call flow of the program, which only hashes and
caches images that were not found in the cache); a re-hashed path is
overwritten with the new fingerprint. -/
theorem caching_preserves_unrehashed (images : List Image) (c : Cache)
    (p : String) (v : Nat) (hv : lookupCache c p = some v)
    (hno : ∀ im ∈ images, im.path = p → im.hash = none) :
    lookupCache (caching images c).1 p = some v := by
  rw [caching_fold_lookup, newHash_eq_none_of hno]
  exact hv

/-- Witness for C8 (amended): a cached entry whose path is not re-hashed
survives caching. -/
theorem caching_preserves_unrehashed_witness :
    lookupCache (caching [⟨"q", some 3, 0⟩] [("p", 1)]).1 "p" = some 1 :=
  caching_preserves_unrehashed [⟨"q", some 3, 0⟩] [("p", 1)] "p" 1 rfl
    (by decide)

/-- C9 counterexample: the save step of `caching` is not
write-to-temp-then-replace: it truncates and writes the final cache file
path directly, with no rename producing the target. -/
theorem save_not_temp_then_replace_cex :
    writeToTempThenReplace cacheFileName saveOps = false := rfl

/-- C9 (amended): the save writes the pickled mapping directly into the
cache file (truncate then write, no temporary file); a crash before the
open leaves the prior file, a crash after the open or mid-write leaves a
truncated or partial pickle that fails to load with the corrupt-cache
error, and only a completed save loads back the full mapping — so no
crash point yields a file that loads successfully while missing
entries. -/
theorem save_direct_write_crash_states (prior : CacheFile) (c : Cache) :
    fileAfterCrash prior c SaveCrash.beforeOpen = prior ∧
    load_cache (fileAfterCrash prior c SaveCrash.afterOpen) = Except.error
      (LoadError.corruptCache "The cache file might be corrupted (or empty)") ∧
    load_cache (fileAfterCrash prior c SaveCrash.midWrite) = Except.error
      (LoadError.corruptCache "The cache file might be corrupted (or empty)") ∧
    load_cache (fileAfterCrash prior c SaveCrash.completed) = Except.ok c :=
  ⟨rfl, rfl, rfl, rfl⟩

/-- Witness for C9 (amended): a mid-write crash over an absent prior file
leaves a file that does not load successfully. -/
theorem save_direct_write_crash_states_witness :
    load_cache (fileAfterCrash CacheFile.absent [] SaveCrash.midWrite) =
      Except.error (LoadError.corruptCache
        "The cache file might be corrupted (or empty)") :=
  (save_direct_write_crash_states CacheFile.absent []).2.2.1

/-- C10: `image_grouping` only ever changes the `difference` attribute of
the images it places into groups: on the error path the records are
untouched; on success the list keeps its length, every record keeps its
`path` and `hash`, a record in no group is completely unchanged, and a
grouped record only has its `difference` overwritten with its recorded
distance. -/
theorem image_grouping_frame (images : List Image) (s : Nat) :
    (∀ e, image_grouping images s = Except.error e →
      image_grouping_post images s = images) ∧
    (image_grouping_post images s).length = images.length ∧
    (∀ k, k < images.length →
      ((image_grouping_post images s).getD k dimg).path =
        (images.getD k dimg).path ∧
      ((image_grouping_post images s).getD k dimg).hash =
        (images.getD k dimg).hash) ∧
    (∀ gs, image_grouping images s = Except.ok gs →
      ∀ k, k < images.length →
        (¬ memberIn gs k →
          (image_grouping_post images s).getD k dimg = images.getD k dimg) ∧
        (∀ d, groupDiff gs k = some d →
          (image_grouping_post images s).getD k dimg =
            { images.getD k dimg with difference := d })) := by
  cases hres : image_grouping images s with
  | error e =>
    have hpost : image_grouping_post images s = images := by
      unfold image_grouping_post
      rw [hres]
    refine ⟨fun _ _ => hpost, by rw [hpost], ?_, ?_⟩
    · intro k _
      rw [hpost]
      exact ⟨rfl, rfl⟩
    · intro gs hok
      exact absurd hok (by simp)
  | ok gs =>
    have hpost : image_grouping_post images s = applyDiffs gs images 0 := by
      unfold image_grouping_post
      rw [hres]
    refine ⟨?_, ?_, ?_, ?_⟩
    · intro e he
      exact absurd he (by simp)
    · rw [hpost, applyDiffs_length]
    · intro k hk
      rw [hpost, applyDiffs_getD gs images 0 k hk, Nat.zero_add]
      rcases groupDiff gs k with _ | d
      · exact ⟨rfl, rfl⟩
      · exact ⟨rfl, rfl⟩
    · intro gs' hok k hk
      have hgs : gs' = gs := (Except.ok.inj hok).symm
      rw [hgs]
      constructor
      · intro hnm
        rw [hpost, applyDiffs_getD gs images 0 k hk, Nat.zero_add,
          (groupDiff_eq_none_iff gs k).mpr hnm]
      · intro d hd
        rw [hpost, applyDiffs_getD gs images 0 k hk, Nat.zero_add, hd]

/-- Witness for C10 at the concrete input `ce3`: the path of the image in
the singleton group is unchanged by grouping. -/
theorem image_grouping_frame_witness :
    ((image_grouping_post ce3 1).getD 2 dimg).path =
      (ce3.getD 2 dimg).path :=
  ((image_grouping_frame ce3 1).2.2.1 2 (by decide)).1

end Doppelganger
